import Mathlib

/-!
Verification of `Container::SequencialMap` (Cpp-Utilities).

The container stores a `std::vector<std::map<Key,T>::iterator>` called `v`
(the sequence index) together with a `std::map<Key, T>` called `m` (the key
index).  We embed it shallowly: `v` becomes the list of keys in sequence
order (each vector cell holds an iterator to the map node, and the node is
identified by its key), and `m` becomes a key-sorted association list, which
is exactly the observable content of a `std::map` (its `operator==` compares
the sorted element sequences).
-/

namespace Container

variable {α β : Type} [LinearOrder α]

/-- Lookup in the association list modelling `std::map` (`m.find(k)->second`). -/
def mapLookup (k : α) : List (α × β) → Option β
  | [] => none
  | p :: rest => if p.1 = k then some p.2 else mapLookup k rest

/-- Key membership in the modelled `std::map`. -/
def mapContains (k : α) (l : List (α × β)) : Bool :=
  (mapLookup k l).isSome

/-- `std::map::insert`: walks the sorted list using `<` only; inserts the new
pair at its ordered position when no equivalent key exists, otherwise leaves
the map unchanged.  The boolean is the `inserted` flag of the returned pair. -/
def mapInsert (k : α) (val : β) : List (α × β) → List (α × β) × Bool
  | [] => ([(k, val)], true)
  | p :: rest =>
    if k < p.1 then ((k, val) :: p :: rest, true)
    else if p.1 < k then
      let r := mapInsert k val rest
      (p :: r.1, r.2)
    else (p :: rest, false)

/-- `std::map::erase` of the node with key `k` (the node an iterator with that
key points to): removes the first pair with that key. -/
def mapErase (k : α) : List (α × β) → List (α × β)
  | [] => []
  | p :: rest => if p.1 = k then rest else p :: mapErase k rest

/-- The strict key-sortedness a `std::map` maintains internally. -/
def SortedKeys (l : List (α × β)) : Prop :=
  l.Pairwise (fun p q => p.1 < q.1)

/-- Scan of the sequence index performed by `SequencialMap::find`: the first
position whose entry's key equals `k` (`std::find_if` over `begin()..end()`). -/
def findPos (k : α) : List α → Option Nat
  | [] => none
  | k₀ :: rest => if k₀ = k then some 0 else (findPos k rest).map (· + 1)

/-- The state of a `SequencialMap`: sequence index `v` and key index `m`. -/
structure SequencialMap (α β : Type) where
  v : List α
  m : List (α × β)

namespace SequencialMap

/-- A default-constructed `SequencialMap`. -/
def empty : SequencialMap α β := ⟨[], []⟩

/-- `size()` returns `m.size()`. -/
def size (s : SequencialMap α β) : Nat := s.m.length

/-- `contains(key)` is `find(key) != cend()`, a scan of the sequence index. -/
def contains (s : SequencialMap α β) (k : α) : Bool :=
  (findPos k s.v).isSome

/-- `clear()` empties both indexes. -/
def clear (_ : SequencialMap α β) : SequencialMap α β := empty

/-- `push_back(key, value)`: `find` first; if the key already exists, return
the iterator to the existing entry (its sequence position) and `false`;
otherwise `m.insert(value)`, append the node to `v`, and return `end() - 1`
(position `v.length` of the old vector) and `true`. -/
def push_back (s : SequencialMap α β) (k : α) (val : β) :
    SequencialMap α β × Nat × Bool :=
  match findPos k s.v with
  | some i => (s, i, false)
  | none => (⟨s.v ++ [k], (mapInsert k val s.m).1⟩, s.v.length, true)

/-- Positional `insert(pos, value)` (also `emplace_at`): `find` first; if the
key exists return its position; otherwise `m.insert(value)` and
`v.insert(v.begin() + pos, node)`. -/
def insertAt (s : SequencialMap α β) (pos : Nat) (k : α) (val : β) :
    SequencialMap α β × Nat :=
  match findPos k s.v with
  | some i => (s, i)
  | none => (⟨s.v.insertIdx pos k, (mapInsert k val s.m).1⟩, pos)

/-- `erase(key)`: `find` over the sequence index; absent keys are a no-op;
otherwise `erase(it)` removes the map node `*(pos.n)` and the vector cell. -/
def eraseKey (s : SequencialMap α β) (k : α) : SequencialMap α β :=
  match findPos k s.v with
  | none => s
  | some i => ⟨s.v.eraseIdx i, mapErase k s.m⟩

/-- `erase(pos)`: removes the vector cell at `pos` and its map node.
(Positions past the end are undefined behaviour in the source; they are ruled
out where this operation is used.) -/
def eraseAt (s : SequencialMap α β) (pos : Nat) : SequencialMap α β :=
  match s.v[pos]? with
  | none => s
  | some k => ⟨s.v.eraseIdx pos, mapErase k s.m⟩

/-- Non-const `operator[](key)`: `m.insert({key, T()})`; if the insertion took
place the new node is appended to `v`; returns the mapped value. -/
def bracket [Inhabited β] (s : SequencialMap α β) (k : α) :
    SequencialMap α β × β :=
  (⟨if (mapInsert k (default : β) s.m).2 then s.v ++ [k] else s.v,
      (mapInsert k (default : β) s.m).1⟩,
    (mapLookup k (mapInsert k (default : β) s.m).1).getD default)

/-- Const `operator[](key)`: `find` over the sequence index; returns a copy of
the found entry's mapped value, or a default-constructed `T()` on a miss.  It
is a pure function of the state: the container is not modified. -/
def bracketConst [Inhabited β] (s : SequencialMap α β) (k : α) : β :=
  match findPos k s.v with
  | some _ => (mapLookup k s.m).getD default
  | none => default

/-- Bounds-checked `at(pos)`, i.e. `*v.at(pos)`: `none` models the
`std::out_of_range` exception thrown when `pos >= v.size()`; otherwise the
entry of the map node the vector cell points to. -/
def atPos [Inhabited β] (s : SequencialMap α β) (pos : Nat) :
    Option (α × β) :=
  match s.v[pos]? with
  | none => none
  | some k => some (k, (mapLookup k s.m).getD default)

/-- `keys()`: the keys in sequence order (iteration from `key_begin()` to
`key_end()`). -/
def keys (s : SequencialMap α β) : List α := s.v

/-- `values()`: the mapped values in sequence order (iteration pushing
`it->second`). -/
def values [Inhabited β] (s : SequencialMap α β) : List β :=
  s.v.map (fun k => (mapLookup k s.m).getD default)

/-- The (key, value) entries in sequence order, as iteration over
`begin()..end()` yields them. -/
def entries [Inhabited β] (s : SequencialMap α β) : List (α × β) :=
  s.v.map (fun k => (k, (mapLookup k s.m).getD default))

/-- Appending a whole list through repeated `push_back` (the range overload
`push_back(first, last)`, also used by the range and initializer-list
constructors). -/
def foldPushPairs (s : SequencialMap α β) (l : List (α × β)) :
    SequencialMap α β :=
  l.foldl (fun acc p => (push_back acc p.1 p.2).1) s

/-- Construction from an initializer list: `push_back(init)` on a fresh map. -/
def ofList (l : List (α × β)) : SequencialMap α β :=
  foldPushPairs empty l

/-- Copy assignment `operator=(const SequencialMap&)`:
`clear(); push_back(other.begin(), other.end())`. -/
def assignCopy [Inhabited β] (t : SequencialMap α β) : SequencialMap α β :=
  foldPushPairs empty (entries t)

/-- `operator==` delegates to `m == other.m`: `std::map` equality, i.e.
equality of the key-sorted element sequences. -/
def eqOp [DecidableEq α] [DecidableEq β] (s t : SequencialMap α β) : Bool :=
  decide (s.m = t.m)

/-- Serialization (`operator<<` on the `SerializeManipulator`): the stream
receives `size()` followed by each entry's key and value in sequence order. -/
def encode [Inhabited β] (s : SequencialMap α β) : Nat × List (α × β) :=
  (size s, entries s)

/-- Deserialization (`operator>>`): `clear()` the target, read the count,
then `push_back` that many decoded pairs in order. -/
def decode (c : Nat × List (α × β)) : SequencialMap α β :=
  foldPushPairs empty (c.2.take c.1)

/-- The consistency invariant tying the two indexes together: no sequence
position repeats a key, every sequence position resolves to a key present in
the key index, every key-index node is referenced by some position, and the
key index is strictly key-sorted (hence each key appears there exactly once). -/
def Inv (s : SequencialMap α β) : Prop :=
  s.v.Nodup ∧ (∀ k ∈ s.v, mapContains k s.m = true) ∧
    (∀ p ∈ s.m, p.1 ∈ s.v) ∧ SortedKeys s.m

/-- States produced by sequences of the public mutating operations, starting
from a default-constructed container.  Positional operations carry the
in-range preconditions the C++ contract demands (out-of-range positional
insert or erase is undefined behaviour in the source). -/
inductive Reachable [Inhabited β] : SequencialMap α β → Prop where
  | empty : Reachable SequencialMap.empty
  | push_back (s : SequencialMap α β) (k : α) (val : β) :
      Reachable s → Reachable (SequencialMap.push_back s k val).1
  | insertAt (s : SequencialMap α β) (pos : Nat) (k : α) (val : β) :
      pos ≤ s.v.length → Reachable s →
      Reachable (SequencialMap.insertAt s pos k val).1
  | eraseKey (s : SequencialMap α β) (k : α) :
      Reachable s → Reachable (SequencialMap.eraseKey s k)
  | eraseAt (s : SequencialMap α β) (pos : Nat) :
      pos < s.v.length → Reachable s →
      Reachable (SequencialMap.eraseAt s pos)
  | clear (s : SequencialMap α β) :
      Reachable s → Reachable (SequencialMap.clear s)
  | bracket (s : SequencialMap α β) (k : α) :
      Reachable s → Reachable (SequencialMap.bracket s k).1
  | assign (s t : SequencialMap α β) :
      Reachable s → Reachable t → Reachable (SequencialMap.assignCopy t)

/-- `operator!=` as written in the source: its body is
`return *this != other;`, a call to itself on the same arguments.  The fuel
parameter counts call frames; `none` means the computation has not produced
an answer after that many frames. -/
def neqFuel (s t : SequencialMap α β) : Nat → Option Bool
  | 0 => none
  | n + 1 => neqFuel s t n

end SequencialMap

/-- Specification-side helper: the sublist of first occurrences of keys, in
order, of the pairs whose key is not already in `seen` (first-seen
insertion-order semantics of repeated `push_back`). -/
def firstOccsFrom (seen : List α) : List (α × β) → List (α × β)
  | [] => []
  | p :: rest =>
    if p.1 ∈ seen then firstOccsFrom seen rest
    else p :: firstOccsFrom (seen ++ [p.1]) rest

/-- Specification-side helper: first occurrences of keys in a pair list. -/
def firstOccs (l : List (α × β)) : List (α × β) :=
  firstOccsFrom [] l

/-- Specification-side helper: ordered insertion of a pair by key. -/
def insortPair (p : α × β) : List (α × β) → List (α × β)
  | [] => [p]
  | q :: rest => if p.1 < q.1 then p :: q :: rest else q :: insortPair p rest

/-- Specification-side helper: sort a pair list by key (insertion sort). -/
def sortByKey (l : List (α × β)) : List (α × β) :=
  l.foldr insortPair []

/-- Specification-side reading of "key-sorted contents": the sequence-order
entries of the container, sorted by key. -/
def keySortedEntries [Inhabited β] (s : SequencialMap α β) : List (α × β) :=
  sortByKey (SequencialMap.entries s)

instance decidableSortedKeys (l : List (α × β)) : Decidable (SortedKeys l) := by
  unfold SortedKeys
  infer_instance

instance decidableInv (s : SequencialMap α β) : Decidable (SequencialMap.Inv s) := by
  unfold SequencialMap.Inv
  infer_instance

instance : IsAntisymm (α × β) (fun p q => p.1 < q.1) where
  antisymm _ _ h₁ h₂ := absurd h₁ (asymm h₂)

theorem findPos_isSome_iff (k : α) (l : List α) :
    (findPos k l).isSome = true ↔ k ∈ l := by
  induction l with
  | nil => simp [findPos]
  | cons k₀ rest ih =>
    by_cases h : k₀ = k
    · subst h; simp [findPos]
    · simp only [findPos, h, if_false, List.mem_cons]
      constructor
      · intro hs
        rcases hpos : findPos k rest with _ | j
        · rw [hpos] at hs; simp at hs
        · exact Or.inr (ih.mp (by simp [hpos]))
      · intro hm
        rcases hm with hm | hm
        · exact absurd hm.symm h
        · obtain ⟨j, hj⟩ := Option.isSome_iff_exists.mp (ih.mpr hm)
          simp [hj]

theorem findPos_eq_none_iff (k : α) (l : List α) :
    findPos k l = none ↔ k ∉ l := by
  rw [← findPos_isSome_iff k l]
  cases findPos k l <;> simp

theorem findPos_append_self (k : α) (l : List α) (h : k ∉ l) :
    findPos k (l ++ [k]) = some l.length := by
  induction l with
  | nil => simp [findPos]
  | cons k₀ rest ih =>
    simp only [List.mem_cons, not_or] at h
    have h₁ : ¬ (k₀ = k) := fun hh => h.1 hh.symm
    simp [findPos, h₁, ih h.2]

theorem findPos_decomp (k : α) (l : List α) (i : Nat)
    (h : findPos k l = some i) :
    ∃ l₁ l₂, l = l₁ ++ k :: l₂ ∧ i = l₁.length ∧ k ∉ l₁ := by
  induction l generalizing i with
  | nil => simp [findPos] at h
  | cons k₀ rest ih =>
    by_cases hk : k₀ = k
    · subst hk
      have h₀ : i = 0 := by
        simp [findPos] at h
        omega
      exact ⟨[], rest, by simp, by simp [h₀], by simp⟩
    · simp only [findPos, hk, if_false, Option.map_eq_some'] at h
      obtain ⟨j, hj, hij⟩ := h
      obtain ⟨l₁, l₂, hl, hlen, hmem⟩ := ih j hj
      refine ⟨k₀ :: l₁, l₂, by simp [hl], by simp [hlen, ← hij], ?_⟩
      simp only [List.mem_cons, not_or]
      exact ⟨fun hh => hk hh.symm, hmem⟩

theorem eraseIdx_append_cons (l₁ : List α) (k : α) (l₂ : List α) :
    (l₁ ++ k :: l₂).eraseIdx l₁.length = l₁ ++ l₂ := by
  induction l₁ with
  | nil => simp [List.eraseIdx]
  | cons x xs ih => simp [List.eraseIdx, ih]

theorem mapLookup_mem {k : α} {val : β} {l : List (α × β)}
    (h : mapLookup k l = some val) : (k, val) ∈ l := by
  induction l with
  | nil => simp [mapLookup] at h
  | cons p rest ih =>
    by_cases hp : p.1 = k
    · simp only [mapLookup, hp, if_pos rfl, Option.some.injEq] at h
      have : p = (k, val) := by
        cases p
        simp_all
      simp [this]
    · simp only [mapLookup, hp, if_false] at h
      exact List.mem_cons_of_mem _ (ih h)

theorem mapContains_iff (k : α) (l : List (α × β)) :
    mapContains k l = true ↔ k ∈ l.map Prod.fst := by
  induction l with
  | nil => simp [mapContains, mapLookup]
  | cons p rest ih =>
    by_cases hp : p.1 = k
    · simp [mapContains, mapLookup, hp]
    · have hne : ¬ (k = p.1) := fun hh => hp hh.symm
      simp only [mapContains, mapLookup, hp, if_false, List.map_cons,
        List.mem_cons, hne, false_or]
      unfold mapContains at ih
      exact ih

theorem mapLookup_eq_none_iff (k : α) (l : List (α × β)) :
    mapLookup k l = none ↔ k ∉ l.map Prod.fst := by
  rw [← mapContains_iff]
  unfold mapContains
  cases mapLookup k l <;> simp

theorem sortedKeys_keysNodup {l : List (α × β)} (hs : SortedKeys l) :
    (l.map Prod.fst).Nodup := by
  have h := hs.map Prod.fst (fun a b hab => ne_of_lt hab)
  simpa [List.Nodup] using h

theorem mapLookup_eq_none_of_forall_lt {k : α} {l : List (α × β)}
    (h : ∀ q ∈ l, k < q.1) : mapLookup k l = none := by
  rw [mapLookup_eq_none_iff]
  intro hmem
  obtain ⟨q, hq, hq₁⟩ := List.mem_map.mp hmem
  exact absurd (hq₁ ▸ h q hq) (lt_irrefl k)

theorem mapLookup_mapInsert_self (k : α) (val : β) (l : List (α × β))
    (hs : SortedKeys l) :
    mapLookup k (mapInsert k val l).1 = some ((mapLookup k l).getD val) := by
  induction l with
  | nil => simp [mapInsert, mapLookup]
  | cons p rest ih =>
    obtain ⟨hhead, htail⟩ := List.pairwise_cons.mp hs
    rcases lt_trichotomy k p.1 with h | h | h
    · have hne : ¬ (p.1 = k) := fun hh => absurd (hh ▸ h) (lt_irrefl _)
      have hnone : mapLookup k rest = none :=
        mapLookup_eq_none_of_forall_lt (fun q hq => lt_trans h (hhead q hq))
      simp [mapInsert, h, mapLookup, hne, hnone]
    · have h₁ : ¬ k < p.1 := by simp [h]
      have h₂ : ¬ p.1 < k := by simp [h]
      simp [mapInsert, h₁, h₂, mapLookup, h.symm]
    · have h₁ : ¬ k < p.1 := asymm h
      have hne : ¬ (p.1 = k) := fun hh => absurd (hh ▸ h) (lt_irrefl _)
      simp [mapInsert, h₁, h, mapLookup, hne, ih htail]

theorem mapLookup_mapInsert_ne (k₁ k : α) (val : β) (l : List (α × β))
    (hne : k₁ ≠ k) :
    mapLookup k₁ (mapInsert k val l).1 = mapLookup k₁ l := by
  have hne' : ¬ (k = k₁) := fun hh => hne hh.symm
  induction l with
  | nil => simp [mapInsert, mapLookup, hne']
  | cons p rest ih =>
    rcases lt_trichotomy k p.1 with h | h | h
    · simp [mapInsert, h, mapLookup, hne']
    · have h₁ : ¬ k < p.1 := by simp [h]
      have h₂ : ¬ p.1 < k := by simp [h]
      simp [mapInsert, h₁, h₂]
    · have h₁ : ¬ k < p.1 := asymm h
      simp [mapInsert, h₁, h, mapLookup, ih]

theorem mapInsert_flag (k : α) (val : β) (l : List (α × β))
    (hs : SortedKeys l) :
    ((mapInsert k val l).2 = true ↔ mapLookup k l = none) := by
  induction l with
  | nil => simp [mapInsert, mapLookup]
  | cons p rest ih =>
    obtain ⟨hhead, htail⟩ := List.pairwise_cons.mp hs
    rcases lt_trichotomy k p.1 with h | h | h
    · have hne : ¬ (p.1 = k) := fun hh => absurd (hh ▸ h) (lt_irrefl _)
      have hnone : mapLookup k rest = none :=
        mapLookup_eq_none_of_forall_lt (fun q hq => lt_trans h (hhead q hq))
      simp [mapInsert, h, mapLookup, hne, hnone]
    · have h₁ : ¬ k < p.1 := by simp [h]
      have h₂ : ¬ p.1 < k := by simp [h]
      simp [mapInsert, h₁, h₂, mapLookup, h.symm]
    · have h₁ : ¬ k < p.1 := asymm h
      have hne : ¬ (p.1 = k) := fun hh => absurd (hh ▸ h) (lt_irrefl _)
      simp [mapInsert, h₁, h, mapLookup, hne, ih htail]

theorem mem_mapInsert_sub {q : α × β} {k : α} {val : β} {l : List (α × β)}
    (h : q ∈ (mapInsert k val l).1) : q ∈ l ∨ q = (k, val) := by
  induction l with
  | nil => simp [mapInsert] at h; simp [h]
  | cons p rest ih =>
    rcases lt_trichotomy k p.1 with hlt | hlt | hlt
    · simp only [mapInsert, if_pos hlt] at h
      rcases List.mem_cons.mp h with h | h
      · exact Or.inr h
      · exact Or.inl h
    · have h₁ : ¬ k < p.1 := by simp [hlt]
      have h₂ : ¬ p.1 < k := by simp [hlt]
      simp only [mapInsert, h₁, if_false, h₂] at h
      exact Or.inl h
    · have h₁ : ¬ k < p.1 := asymm hlt
      simp only [mapInsert, h₁, if_false, if_pos hlt, List.mem_cons] at h
      rcases h with h | h
      · exact Or.inl (by simp [h])
      · rcases ih h with h' | h'
        · exact Or.inl (List.mem_cons_of_mem _ h')
        · exact Or.inr h'

theorem mem_mapInsert_super {q : α × β} (k : α) (val : β)
    {l : List (α × β)} (h : q ∈ l) : q ∈ (mapInsert k val l).1 := by
  induction l with
  | nil => simp at h
  | cons p rest ih =>
    rcases lt_trichotomy k p.1 with hlt | hlt | hlt
    · simp only [mapInsert, if_pos hlt, List.mem_cons]
      simp only [List.mem_cons] at h
      rcases h with h | h
      · exact Or.inr (Or.inl h)
      · exact Or.inr (Or.inr h)
    · have h₁ : ¬ k < p.1 := by simp [hlt]
      have h₂ : ¬ p.1 < k := by simp [hlt]
      simp only [mapInsert, h₁, if_false, h₂]
      exact h
    · have h₁ : ¬ k < p.1 := asymm hlt
      simp only [mapInsert, h₁, if_false, if_pos hlt, List.mem_cons]
      simp only [List.mem_cons] at h
      rcases h with h | h
      · exact Or.inl h
      · exact Or.inr (ih h)

theorem self_mem_mapInsert (k : α) (val : β) {l : List (α × β)}
    (h : mapLookup k l = none) : (k, val) ∈ (mapInsert k val l).1 := by
  induction l with
  | nil => simp [mapInsert]
  | cons p rest ih =>
    have hcons : ¬ (p.1 = k) ∧ mapLookup k rest = none := by
      by_cases hp : p.1 = k
      · simp [mapLookup, hp] at h
      · simp only [mapLookup, hp, if_false] at h
        exact ⟨hp, h⟩
    rcases lt_trichotomy k p.1 with hlt | hlt | hlt
    · simp [mapInsert, hlt]
    · exact absurd hlt.symm hcons.1
    · have h₁ : ¬ k < p.1 := asymm hlt
      simp only [mapInsert, h₁, if_false, if_pos hlt, List.mem_cons]
      exact Or.inr (ih hcons.2)

theorem sortedKeys_mapInsert (k : α) (val : β) {l : List (α × β)}
    (hs : SortedKeys l) : SortedKeys (mapInsert k val l).1 := by
  induction l with
  | nil => simp [mapInsert, SortedKeys]
  | cons p rest ih =>
    obtain ⟨hhead, htail⟩ := List.pairwise_cons.mp hs
    rcases lt_trichotomy k p.1 with hlt | hlt | hlt
    · simp only [mapInsert, if_pos hlt]
      refine List.pairwise_cons.mpr ⟨?_, hs⟩
      intro q hq
      rcases List.mem_cons.mp hq with h | h
      · exact h ▸ hlt
      · exact lt_trans hlt (hhead q h)
    · have h₁ : ¬ k < p.1 := by simp [hlt]
      have h₂ : ¬ p.1 < k := by simp [hlt]
      simpa only [mapInsert, h₁, if_false, h₂] using hs
    · have h₁ : ¬ k < p.1 := asymm hlt
      simp only [mapInsert, h₁, if_false, if_pos hlt]
      refine List.pairwise_cons.mpr ⟨?_, ih htail⟩
      intro q hq
      rcases mem_mapInsert_sub hq with h | h
      · exact hhead q h
      · simpa [h] using hlt

theorem length_mapInsert (k : α) (val : β) (l : List (α × β)) :
    (mapInsert k val l).1.length =
      l.length + (if (mapInsert k val l).2 then 1 else 0) := by
  induction l with
  | nil => simp [mapInsert]
  | cons p rest ih =>
    rcases lt_trichotomy k p.1 with hlt | hlt | hlt
    · simp [mapInsert, hlt]
    · have h₁ : ¬ k < p.1 := by simp [hlt]
      have h₂ : ¬ p.1 < k := by simp [hlt]
      simp [mapInsert, h₁, h₂]
    · have h₁ : ¬ k < p.1 := asymm hlt
      simp only [mapInsert, h₁, if_false, if_pos hlt, List.length_cons, ih]
      omega

theorem mapInsert_of_flag_false (k : α) (val : β) {l : List (α × β)}
    (h : (mapInsert k val l).2 = false) : (mapInsert k val l).1 = l := by
  induction l with
  | nil => simp [mapInsert] at h
  | cons p rest ih =>
    rcases lt_trichotomy k p.1 with hlt | hlt | hlt
    · simp [mapInsert, hlt] at h
    · have h₁ : ¬ k < p.1 := by simp [hlt]
      have h₂ : ¬ p.1 < k := by simp [hlt]
      simp [mapInsert, h₁, h₂]
    · have h₁ : ¬ k < p.1 := asymm hlt
      simp only [mapInsert, h₁, if_false, if_pos hlt] at h ⊢
      simp [ih h]

theorem mapErase_sublist (k : α) (l : List (α × β)) :
    List.Sublist (mapErase k l) l := by
  induction l with
  | nil => simp [mapErase]
  | cons p rest ih =>
    by_cases hp : p.1 = k
    · simp only [mapErase, if_pos hp]
      exact List.sublist_cons_self p rest
    · simp only [mapErase, hp, if_false]
      exact ih.cons₂ p

theorem mapLookup_mapErase_self (k : α) {l : List (α × β)}
    (hn : (l.map Prod.fst).Nodup) : mapLookup k (mapErase k l) = none := by
  induction l with
  | nil => simp [mapErase, mapLookup]
  | cons p rest ih =>
    simp only [List.map_cons, List.nodup_cons] at hn
    by_cases hp : p.1 = k
    · simp only [mapErase, if_pos hp]
      rw [mapLookup_eq_none_iff]
      exact hp ▸ hn.1
    · simp [mapErase, hp, mapLookup, ih hn.2]

theorem mapLookup_mapErase_ne (k₁ k : α) {l : List (α × β)}
    (h : k₁ ≠ k) : mapLookup k₁ (mapErase k l) = mapLookup k₁ l := by
  have hkk : ¬ (k = k₁) := fun hh => h hh.symm
  induction l with
  | nil => simp [mapErase]
  | cons p rest ih =>
    by_cases hp : p.1 = k
    · simp [mapErase, hp, mapLookup, hkk]
    · by_cases hp₁ : p.1 = k₁
      · simp [mapErase, hp, mapLookup, hp₁, h]
      · simp [mapErase, hp, mapLookup, hp₁, ih]

theorem mem_mapErase_of_ne {q : α × β} {k : α} {l : List (α × β)}
    (hq : q ∈ l) (h : q.1 ≠ k) : q ∈ mapErase k l := by
  induction l with
  | nil => simp at hq
  | cons p rest ih =>
    rcases List.mem_cons.mp hq with h' | h'
    · have : ¬ (p.1 = k) := h' ▸ h
      simp [mapErase, this, h']
    · by_cases hp : p.1 = k
      · simpa [mapErase, hp] using h'
      · simp only [mapErase, hp, if_false, List.mem_cons]
        exact Or.inr (ih h')

theorem ne_of_mem_mapErase {q : α × β} {k : α} {l : List (α × β)}
    (hn : (l.map Prod.fst).Nodup) (hq : q ∈ mapErase k l) : q.1 ≠ k := by
  induction l with
  | nil => simp [mapErase] at hq
  | cons p rest ih =>
    simp only [List.map_cons, List.nodup_cons] at hn
    by_cases hp : p.1 = k
    · simp only [mapErase, if_pos hp] at hq
      intro hqk
      exact hn.1 (hp ▸ hqk ▸ List.mem_map_of_mem Prod.fst hq)
    · simp only [mapErase, hp, if_false, List.mem_cons] at hq
      rcases hq with h' | h'
      · exact h' ▸ hp
      · exact ih hn.2 h'

theorem length_mapErase (k : α) {l : List (α × β)}
    (h : mapContains k l = true) : (mapErase k l).length + 1 = l.length := by
  induction l with
  | nil => simp [mapContains, mapLookup] at h
  | cons p rest ih =>
    by_cases hp : p.1 = k
    · simp [mapErase, hp]
    · simp only [mapContains, mapLookup, hp, if_false] at h
      simp only [mapErase, hp, if_false, List.length_cons]
      unfold mapContains at ih
      rw [← ih h]

theorem contains_iff_mem (s : SequencialMap α β) (k : α) :
    SequencialMap.contains s k = true ↔ k ∈ s.v := by
  unfold SequencialMap.contains
  exact findPos_isSome_iff k s.v

theorem inv_empty :
    SequencialMap.Inv (SequencialMap.empty : SequencialMap α β) := by
  unfold SequencialMap.Inv SequencialMap.empty SortedKeys
  simp

theorem inv_lookup_none {s : SequencialMap α β} (hi : SequencialMap.Inv s)
    {k : α} (hk : k ∉ s.v) : mapLookup k s.m = none := by
  rw [mapLookup_eq_none_iff]
  intro hmem
  obtain ⟨q, hq, hq₁⟩ := List.mem_map.mp hmem
  exact hk (hq₁ ▸ hi.2.2.1 q hq)

theorem inv_lookup_some {s : SequencialMap α β} (hi : SequencialMap.Inv s)
    {k : α} (hk : k ∈ s.v) : ∃ val, mapLookup k s.m = some val := by
  have h := hi.2.1 k hk
  unfold mapContains at h
  exact Option.isSome_iff_exists.mp h

theorem inv_append_insert {s : SequencialMap α β} (k : α) (val : β)
    (hi : SequencialMap.Inv s) (hk : k ∉ s.v) :
    SequencialMap.Inv ⟨s.v ++ [k], (mapInsert k val s.m).1⟩ := by
  have hnone : mapLookup k s.m = none := inv_lookup_none hi hk
  obtain ⟨hnd, hcont, hback, hsort⟩ := hi
  refine ⟨?_, ?_, ?_, ?_⟩
  · simp [List.nodup_append, hnd, hk]
  · intro k₁ hk₁
    unfold mapContains
    by_cases hke : k₁ = k
    · subst hke
      rw [mapLookup_mapInsert_self k₁ val s.m hsort, hnone]
      simp
    · rw [mapLookup_mapInsert_ne k₁ k val s.m hke]
      have hk₁v : k₁ ∈ s.v := by
        rcases List.mem_append.mp hk₁ with h | h
        · exact h
        · simp at h; exact absurd h hke
      have := hcont k₁ hk₁v
      unfold mapContains at this
      exact this
  · intro p hp
    rcases mem_mapInsert_sub hp with h | h
    · exact List.mem_append.mpr (Or.inl (hback p h))
    · simp [h]
  · exact sortedKeys_mapInsert k val hsort

theorem inv_push_back (s : SequencialMap α β) (k : α) (val : β)
    (hi : SequencialMap.Inv s) :
    SequencialMap.Inv (SequencialMap.push_back s k val).1 := by
  unfold SequencialMap.push_back
  rcases hfp : findPos k s.v with _ | i
  · exact inv_append_insert k val hi ((findPos_eq_none_iff k s.v).mp hfp)
  · exact hi

theorem insertIdx_perm (l : List α) (pos : Nat) (a : α) (h : pos ≤ l.length) :
    List.Perm (l.insertIdx pos a) (a :: l) := by
  induction l generalizing pos with
  | nil =>
    have hz : pos = 0 := Nat.le_zero.mp h
    simp [hz]
  | cons b rest ih =>
    cases pos with
    | zero => simp
    | succ n =>
      simp only [List.insertIdx_succ_cons]
      have hn : n ≤ rest.length := Nat.le_of_succ_le_succ h
      exact ((ih n hn).cons b).trans (List.Perm.swap a b rest)

theorem inv_insertAt (s : SequencialMap α β) (pos : Nat) (k : α) (val : β)
    (hpos : pos ≤ s.v.length) (hi : SequencialMap.Inv s) :
    SequencialMap.Inv (SequencialMap.insertAt s pos k val).1 := by
  unfold SequencialMap.insertAt
  rcases hfp : findPos k s.v with _ | i
  · have hk : k ∉ s.v := (findPos_eq_none_iff k s.v).mp hfp
    have hperm := insertIdx_perm s.v pos k hpos
    have hbase := inv_append_insert k val hi hk
    obtain ⟨hnd', hcont', hback', hsort'⟩ := hbase
    refine ⟨?_, ?_, ?_, ?_⟩
    · rw [hperm.nodup_iff]
      have : (s.v ++ [k]).Nodup := hnd'
      have hp₂ : List.Perm (s.v ++ [k]) (k :: s.v) := List.perm_append_comm
      exact hp₂.nodup_iff.mp this
    · intro k₁ hk₁
      refine hcont' k₁ ?_
      have : k₁ ∈ k :: s.v := hperm.mem_iff.mp hk₁
      rcases List.mem_cons.mp this with h | h
      · simp [h]
      · exact List.mem_append.mpr (Or.inl h)
    · intro p hp
      have := hback' p hp
      rw [hperm.mem_iff]
      rcases List.mem_append.mp this with h | h
      · exact List.mem_cons_of_mem _ h
      · simp at h; simp [h]
    · exact hsort'
  · exact hi

theorem inv_eraseKey (s : SequencialMap α β) (k : α)
    (hi : SequencialMap.Inv s) :
    SequencialMap.Inv (SequencialMap.eraseKey s k) := by
  unfold SequencialMap.eraseKey
  rcases hfp : findPos k s.v with _ | i
  · exact hi
  · obtain ⟨hnd, hcont, hback, hsort⟩ := hi
    have hkeysnd := sortedKeys_keysNodup hsort
    obtain ⟨l₁, l₂, hdecomp, hlen, hnotl₁⟩ := findPos_decomp k s.v i hfp
    have hv' : s.v.eraseIdx i = l₁ ++ l₂ := by
      rw [hdecomp, hlen]
      exact eraseIdx_append_cons l₁ k l₂
    have hmid : (k :: (l₁ ++ l₂)).Nodup :=
      List.nodup_middle.mp (hdecomp ▸ hnd)
    obtain ⟨hknotin, hnd'⟩ := List.nodup_cons.mp hmid
    show SequencialMap.Inv ⟨s.v.eraseIdx i, mapErase k s.m⟩
    refine ⟨?_, ?_, ?_, ?_⟩
    · rw [hv']; exact hnd'
    · intro k₁ hk₁
      rw [hv'] at hk₁
      have hne : k₁ ≠ k := fun hh => hknotin (hh ▸ hk₁)
      have hk₁v : k₁ ∈ s.v := by
        rw [hdecomp]
        rcases List.mem_append.mp hk₁ with h | h
        · exact List.mem_append.mpr (Or.inl h)
        · exact List.mem_append.mpr (Or.inr (List.mem_cons_of_mem _ h))
      unfold mapContains
      rw [mapLookup_mapErase_ne k₁ k hne]
      have := hcont k₁ hk₁v
      unfold mapContains at this
      exact this
    · intro p hp
      have hpm : p ∈ s.m := (mapErase_sublist k s.m).subset hp
      have hpv : p.1 ∈ s.v := hback p hpm
      have hpk : p.1 ≠ k := ne_of_mem_mapErase hkeysnd hp
      rw [hv']
      rw [hdecomp] at hpv
      rcases List.mem_append.mp hpv with h | h
      · exact List.mem_append.mpr (Or.inl h)
      · rcases List.mem_cons.mp h with h' | h'
        · exact absurd h' hpk
        · exact List.mem_append.mpr (Or.inr h')
    · exact hsort.sublist (mapErase_sublist k s.m)

theorem findPos_getElem {l : List α} (hnd : l.Nodup) {pos : Nat} {k : α}
    (h : l[pos]? = some k) : findPos k l = some pos := by
  induction l generalizing pos with
  | nil => simp at h
  | cons b rest ih =>
    obtain ⟨hb, hndr⟩ := List.nodup_cons.mp hnd
    cases pos with
    | zero =>
      simp only [List.getElem?_cons_zero, Option.some.injEq] at h
      simp [findPos, h]
    | succ n =>
      simp only [List.getElem?_cons_succ] at h
      have hmem : k ∈ rest := by
        have := List.getElem?_eq_some.mp h
        obtain ⟨hlt, hget⟩ := this
        exact hget ▸ List.getElem_mem hlt
      have hbk : ¬ (b = k) := fun hh => hb (hh ▸ hmem)
      simp [findPos, hbk, ih hndr h]

theorem eraseAt_eq_eraseKey (s : SequencialMap α β) (pos : Nat)
    (hnd : s.v.Nodup) {k : α} (h : s.v[pos]? = some k) :
    SequencialMap.eraseAt s pos = SequencialMap.eraseKey s k := by
  unfold SequencialMap.eraseAt SequencialMap.eraseKey
  rw [h, findPos_getElem hnd h]

theorem inv_eraseAt (s : SequencialMap α β) (pos : Nat)
    (hpos : pos < s.v.length) (hi : SequencialMap.Inv s) :
    SequencialMap.Inv (SequencialMap.eraseAt s pos) := by
  have h : s.v[pos]? = some (s.v.get ⟨pos, hpos⟩) := by
    simp [List.getElem?_eq_getElem hpos]
  rw [eraseAt_eq_eraseKey s pos hi.1 h]
  exact inv_eraseKey s _ hi

theorem inv_bracket [Inhabited β] (s : SequencialMap α β) (k : α)
    (hi : SequencialMap.Inv s) :
    SequencialMap.Inv (SequencialMap.bracket s k).1 := by
  unfold SequencialMap.bracket
  cases hflag : (mapInsert k (default : β) s.m).2 with
  | false =>
    simp only [hflag, if_false]
    rw [mapInsert_of_flag_false k default hflag]
    exact hi
  | true =>
    simp only [hflag, if_true]
    have hnone : mapLookup k s.m = none :=
      (mapInsert_flag k default s.m hi.2.2.2).mp hflag
    have hk : k ∉ s.v := by
      intro hkv
      obtain ⟨val, hval⟩ := inv_lookup_some hi hkv
      rw [hval] at hnone
      exact Option.noConfusion hnone
    exact inv_append_insert k default hi hk

theorem inv_foldPushPairs (l : List (α × β)) (s : SequencialMap α β)
    (hi : SequencialMap.Inv s) :
    SequencialMap.Inv (SequencialMap.foldPushPairs s l) := by
  induction l generalizing s with
  | nil => exact hi
  | cons p rest ih =>
    exact ih (SequencialMap.push_back s p.1 p.2).1 (inv_push_back s p.1 p.2 hi)

theorem inv_assignCopy [Inhabited β] (t : SequencialMap α β) :
    SequencialMap.Inv (SequencialMap.assignCopy t) :=
  inv_foldPushPairs _ _ inv_empty

theorem inv_size {s : SequencialMap α β} (hi : SequencialMap.Inv s) :
    s.v.length = s.m.length := by
  obtain ⟨hnd, hcont, hback, hsort⟩ := hi
  have hknd := sortedKeys_keysNodup hsort
  have hperm : List.Perm s.v (s.m.map Prod.fst) := by
    rw [List.perm_ext_iff_of_nodup hnd hknd]
    intro a
    constructor
    · intro ha
      have h := hcont a ha
      rw [mapContains_iff] at h
      exact h
    · intro ha
      obtain ⟨q, hq, hq₁⟩ := List.mem_map.mp ha
      exact hq₁ ▸ hback q hq
  simpa using hperm.length_eq

/-- Claim C1: after every public operation (any sequence of insert,
push_back, emplace, erase, clear, `operator[]`, assignment) returns, the two
internal indexes are mutually consistent — no two sequence positions resolve
to the same key, every sequence position resolves to an entry present exactly
once in the key index, every key-index entry is referenced by a position —
and the indexes have the same size, so `size()` equals the number of live
distinct keys. -/
theorem claim1_indexes_mutually_consistent [Inhabited β]
    {s : SequencialMap α β} (h : SequencialMap.Reachable s) :
    SequencialMap.Inv s ∧ s.v.length = SequencialMap.size s := by
  have hinv : SequencialMap.Inv s := by
    induction h with
    | empty => exact inv_empty
    | push_back s k val _ ih => exact inv_push_back s k val ih
    | insertAt s pos k val hpos _ ih => exact inv_insertAt s pos k val hpos ih
    | eraseKey s k _ ih => exact inv_eraseKey s k ih
    | eraseAt s pos hpos _ ih => exact inv_eraseAt s pos hpos ih
    | clear s _ _ => exact inv_empty
    | bracket s k _ ih => exact inv_bracket s k ih
    | assign s t _ _ _ _ => exact inv_assignCopy t
  exact ⟨hinv, inv_size hinv⟩

/-- Witness for C1: the consistency conclusion evaluated on a concrete chain
of public operations (two appends followed by an erase). -/
theorem claim1_witness :
    SequencialMap.Inv
        (SequencialMap.eraseKey
            (SequencialMap.push_back
                (SequencialMap.push_back
                    (SequencialMap.empty : SequencialMap Nat Nat) 1 10).1
                2 20).1
            1) ∧
      (SequencialMap.eraseKey
            (SequencialMap.push_back
                (SequencialMap.push_back
                    (SequencialMap.empty : SequencialMap Nat Nat) 1 10).1
                2 20).1
            1).v.length =
        SequencialMap.size
          (SequencialMap.eraseKey
              (SequencialMap.push_back
                  (SequencialMap.push_back
                      (SequencialMap.empty : SequencialMap Nat Nat) 1 10).1
                  2 20).1
              1) :=
  claim1_indexes_mutually_consistent
    (SequencialMap.Reachable.eraseKey _ 1
      (SequencialMap.Reachable.push_back _ 2 20
        (SequencialMap.Reachable.push_back _ 1 10
          SequencialMap.Reachable.empty)))

/-- Claim C2: `push_back(k, v1)` on a container not containing `k`, then
`push_back(k, v2)`: the second call leaves the container unchanged and
returns the sequence position of the existing entry for `k` (the position at
which the first call appended it) together with `false`; the stored value for
`k` remains `v1`, and `size()` is unchanged by the second call. -/
theorem claim2_duplicate_push_back_noop {s : SequencialMap α β}
    (k : α) (v₁ v₂ : β) (hi : SequencialMap.Inv s)
    (hk : SequencialMap.contains s k = false) :
    SequencialMap.push_back (SequencialMap.push_back s k v₁).1 k v₂ =
        ((SequencialMap.push_back s k v₁).1, s.v.length, false) ∧
      mapLookup k (SequencialMap.push_back s k v₁).1.m = some v₁ ∧
      SequencialMap.size
          (SequencialMap.push_back (SequencialMap.push_back s k v₁).1 k v₂).1 =
        SequencialMap.size (SequencialMap.push_back s k v₁).1 := by
  have hkv : k ∉ s.v := by
    intro hmem
    rw [(contains_iff_mem s k).mpr hmem] at hk
    exact Bool.noConfusion hk
  have hfp : findPos k s.v = none := (findPos_eq_none_iff k s.v).mpr hkv
  have hnone : mapLookup k s.m = none := inv_lookup_none hi hkv
  have hs₁ : (SequencialMap.push_back s k v₁).1 =
      ⟨s.v ++ [k], (mapInsert k v₁ s.m).1⟩ := by
    unfold SequencialMap.push_back
    rw [hfp]
  have hfp₂ : findPos k (s.v ++ [k]) = some s.v.length :=
    findPos_append_self k s.v hkv
  have heq : SequencialMap.push_back (SequencialMap.push_back s k v₁).1 k v₂ =
      ((SequencialMap.push_back s k v₁).1, s.v.length, false) := by
    rw [hs₁]
    simp [SequencialMap.push_back, hfp₂]
  have hlook : mapLookup k (SequencialMap.push_back s k v₁).1.m = some v₁ := by
    rw [hs₁]
    show mapLookup k (mapInsert k v₁ s.m).1 = some v₁
    rw [mapLookup_mapInsert_self k v₁ s.m hi.2.2.2, hnone]
    rfl
  exact ⟨heq, hlook, by rw [heq]⟩

/-- Witness for C2: the duplicate-append behaviour evaluated on a concrete
container and key. -/
theorem claim2_witness :
    SequencialMap.push_back
        (SequencialMap.push_back
            (SequencialMap.empty : SequencialMap Nat Nat) 1 10).1 1 20 =
        ((SequencialMap.push_back
            (SequencialMap.empty : SequencialMap Nat Nat) 1 10).1,
          (SequencialMap.empty : SequencialMap Nat Nat).v.length, false) ∧
      mapLookup 1
          (SequencialMap.push_back
              (SequencialMap.empty : SequencialMap Nat Nat) 1 10).1.m =
        some 10 ∧
      SequencialMap.size
          (SequencialMap.push_back
              (SequencialMap.push_back
                  (SequencialMap.empty : SequencialMap Nat Nat) 1 10).1 1 20).1 =
        SequencialMap.size
          (SequencialMap.push_back
              (SequencialMap.empty : SequencialMap Nat Nat) 1 10).1 :=
  claim2_duplicate_push_back_noop 1 10 20 (by decide) (by decide)

/-- Claim C6: the non-const `operator[](k)`: when `k` is present it returns
the stored value and leaves the container unchanged; when `k` is absent it
appends a new entry `(k, T())` at the last sequence position (never in key
order), increments `size()` by one, and returns the default-constructed new
value. -/
theorem claim6_bracket_insert_on_miss [Inhabited β] {s : SequencialMap α β}
    (k : α) (hi : SequencialMap.Inv s) :
    (SequencialMap.contains s k = true →
        SequencialMap.bracket s k = (s, (mapLookup k s.m).getD default) ∧
        mapLookup k s.m = some (SequencialMap.bracket s k).2) ∧
      (SequencialMap.contains s k = false →
        (SequencialMap.bracket s k).1.v = s.v ++ [k] ∧
        (SequencialMap.bracket s k).2 = default ∧
        mapLookup k (SequencialMap.bracket s k).1.m = some default ∧
        SequencialMap.size (SequencialMap.bracket s k).1 =
          SequencialMap.size s + 1) := by
  constructor
  · intro hc
    have hkv : k ∈ s.v := (contains_iff_mem s k).mp hc
    obtain ⟨w, hw⟩ := inv_lookup_some hi hkv
    have hflag : (mapInsert k (default : β) s.m).2 = false := by
      cases hfl : (mapInsert k (default : β) s.m).2
      · rfl
      · have hn := (mapInsert_flag k default s.m hi.2.2.2).mp hfl
        rw [hw] at hn
        exact Option.noConfusion hn
    have hm : (mapInsert k (default : β) s.m).1 = s.m :=
      mapInsert_of_flag_false k default hflag
    constructor
    · unfold SequencialMap.bracket
      rw [hflag, hm]
      simp
    · unfold SequencialMap.bracket
      rw [hm, hw]
      rfl
  · intro hc
    have hkv : k ∉ s.v := by
      intro hmem
      rw [(contains_iff_mem s k).mpr hmem] at hc
      exact Bool.noConfusion hc
    have hnone : mapLookup k s.m = none := inv_lookup_none hi hkv
    have hflag : (mapInsert k (default : β) s.m).2 = true :=
      (mapInsert_flag k default s.m hi.2.2.2).mpr hnone
    have hself : mapLookup k (mapInsert k (default : β) s.m).1 = some default := by
      rw [mapLookup_mapInsert_self k default s.m hi.2.2.2, hnone]
      rfl
    refine ⟨?_, ?_, ?_, ?_⟩
    · unfold SequencialMap.bracket
      rw [hflag]
      simp
    · unfold SequencialMap.bracket
      rw [hself]
      rfl
    · unfold SequencialMap.bracket
      exact hself
    · unfold SequencialMap.bracket SequencialMap.size
      simp only []
      rw [length_mapInsert k default s.m, hflag]
      simp

/-- Witness for C6: `operator[]` evaluated at a concrete container, on a miss
and on a hit. -/
theorem claim6_witness :
    (SequencialMap.contains
          (SequencialMap.push_back
              (SequencialMap.empty : SequencialMap Nat Nat) 5 7).1 5 = true →
        SequencialMap.bracket
            (SequencialMap.push_back
                (SequencialMap.empty : SequencialMap Nat Nat) 5 7).1 5 =
          ((SequencialMap.push_back
              (SequencialMap.empty : SequencialMap Nat Nat) 5 7).1,
            (mapLookup 5
                (SequencialMap.push_back
                    (SequencialMap.empty : SequencialMap Nat Nat) 5 7).1.m).getD
              default) ∧
        mapLookup 5
            (SequencialMap.push_back
                (SequencialMap.empty : SequencialMap Nat Nat) 5 7).1.m =
          some (SequencialMap.bracket
              (SequencialMap.push_back
                  (SequencialMap.empty : SequencialMap Nat Nat) 5 7).1 5).2) ∧
      (SequencialMap.contains
            (SequencialMap.push_back
                (SequencialMap.empty : SequencialMap Nat Nat) 5 7).1 5 = false →
        (SequencialMap.bracket
            (SequencialMap.push_back
                (SequencialMap.empty : SequencialMap Nat Nat) 5 7).1 5).1.v =
          (SequencialMap.push_back
              (SequencialMap.empty : SequencialMap Nat Nat) 5 7).1.v ++ [5] ∧
        (SequencialMap.bracket
            (SequencialMap.push_back
                (SequencialMap.empty : SequencialMap Nat Nat) 5 7).1 5).2 =
          default ∧
        mapLookup 5
            (SequencialMap.bracket
                (SequencialMap.push_back
                    (SequencialMap.empty : SequencialMap Nat Nat) 5 7).1 5).1.m =
          some default ∧
        SequencialMap.size
            (SequencialMap.bracket
                (SequencialMap.push_back
                    (SequencialMap.empty : SequencialMap Nat Nat) 5 7).1 5).1 =
          SequencialMap.size
              (SequencialMap.push_back
                  (SequencialMap.empty : SequencialMap Nat Nat) 5 7).1 + 1) :=
  claim6_bracket_insert_on_miss 5 (by decide)

/-- Claim C8: `at(pos)` raises out-of-range (modelled by `none`) iff
`pos ≥ size()`; for `pos < size()` it returns the entry stored at sequence
position `pos` (as a pure observer, it leaves the container unchanged by
construction). -/
theorem claim8_at_out_of_range [Inhabited β] {s : SequencialMap α β}
    (hi : SequencialMap.Inv s) (pos : Nat) :
    (SequencialMap.atPos s pos = none ↔ SequencialMap.size s ≤ pos) ∧
      (pos < SequencialMap.size s →
        ∃ k val, s.v[pos]? = some k ∧ mapLookup k s.m = some val ∧
          SequencialMap.atPos s pos = some (k, val)) := by
  have hlen : s.v.length = SequencialMap.size s := inv_size hi
  constructor
  · unfold SequencialMap.atPos
    cases hget : s.v[pos]? with
    | none =>
      simp only []
      rw [← hlen]
      simp [List.getElem?_eq_none_iff.mp hget]
    | some k =>
      simp only [Option.some.injEq]
      obtain ⟨hlt, _⟩ := List.getElem?_eq_some.mp hget
      rw [← hlen]
      simp
      omega
  · intro hpos
    rw [← hlen] at hpos
    have hget : s.v[pos]? = some (s.v.get ⟨pos, hpos⟩) := by
      simp [List.getElem?_eq_getElem hpos]
    have hmem : s.v.get ⟨pos, hpos⟩ ∈ s.v := List.getElem_mem hpos
    obtain ⟨val, hval⟩ := inv_lookup_some hi hmem
    refine ⟨s.v.get ⟨pos, hpos⟩, val, hget, hval, ?_⟩
    simp only [SequencialMap.atPos, hget]
    have hval' : mapLookup s.v[pos] s.m = some val := hval
    simp [hval']

/-- Witness for C8: the bounds-check evaluated at a concrete container, in
range and out of range. -/
theorem claim8_witness :
    ((SequencialMap.atPos
            (SequencialMap.push_back
                (SequencialMap.empty : SequencialMap Nat Nat) 4 9).1 3 = none ↔
        SequencialMap.size
            (SequencialMap.push_back
                (SequencialMap.empty : SequencialMap Nat Nat) 4 9).1 ≤ 3) ∧
      (3 < SequencialMap.size
            (SequencialMap.push_back
                (SequencialMap.empty : SequencialMap Nat Nat) 4 9).1 →
        ∃ k val,
          (SequencialMap.push_back
              (SequencialMap.empty : SequencialMap Nat Nat) 4 9).1.v[3]? =
            some k ∧
          mapLookup k
              (SequencialMap.push_back
                  (SequencialMap.empty : SequencialMap Nat Nat) 4 9).1.m =
            some val ∧
          SequencialMap.atPos
              (SequencialMap.push_back
                  (SequencialMap.empty : SequencialMap Nat Nat) 4 9).1 3 =
            some (k, val))) :=
  claim8_at_out_of_range (by decide) 3

/-- Claim C9: `erase(k)` on an absent key is a no-op that leaves the
container completely unchanged; on a present key it removes the entry from
both indexes together — the key's handle disappears from the sequence index
with the remaining order preserved, the key index no longer contains the key,
the size drops by one, and the consistency invariant is preserved, so no
subsequent public call can observe a partially consistent state. -/
theorem claim9_erase_absent_noop {s : SequencialMap α β} (k : α) :
    (SequencialMap.contains s k = false → SequencialMap.eraseKey s k = s) ∧
      (SequencialMap.Inv s → SequencialMap.contains s k = true →
        SequencialMap.Inv (SequencialMap.eraseKey s k) ∧
        (∃ l₁ l₂, s.v = l₁ ++ k :: l₂ ∧
          (SequencialMap.eraseKey s k).v = l₁ ++ l₂) ∧
        mapLookup k (SequencialMap.eraseKey s k).m = none ∧
        SequencialMap.size (SequencialMap.eraseKey s k) + 1 =
          SequencialMap.size s) := by
  constructor
  · intro hc
    have hkv : k ∉ s.v := by
      intro hmem
      rw [(contains_iff_mem s k).mpr hmem] at hc
      exact Bool.noConfusion hc
    unfold SequencialMap.eraseKey
    rw [(findPos_eq_none_iff k s.v).mpr hkv]
  · intro hi hc
    have hkv : k ∈ s.v := (contains_iff_mem s k).mp hc
    obtain ⟨i, hfp⟩ := Option.isSome_iff_exists.mp
      ((findPos_isSome_iff k s.v).mpr hkv)
    obtain ⟨l₁, l₂, hdecomp, hlen, _⟩ := findPos_decomp k s.v i hfp
    have hkeysnd := sortedKeys_keysNodup hi.2.2.2
    have hstate : SequencialMap.eraseKey s k =
        ⟨s.v.eraseIdx i, mapErase k s.m⟩ := by
      unfold SequencialMap.eraseKey
      rw [hfp]
    refine ⟨inv_eraseKey s k hi, ⟨l₁, l₂, hdecomp, ?_⟩, ?_, ?_⟩
    · rw [hstate, hdecomp, hlen]
      exact eraseIdx_append_cons l₁ k l₂
    · rw [hstate]
      exact mapLookup_mapErase_self k hkeysnd
    · rw [hstate]
      unfold SequencialMap.size
      exact length_mapErase k (hi.2.1 k hkv)

/-- Witness for C9: erase evaluated at a concrete container, for a present
key. -/
theorem claim9_witness :
    (SequencialMap.contains
          (SequencialMap.push_back
              (SequencialMap.empty : SequencialMap Nat Nat) 2 6).1 2 = false →
        SequencialMap.eraseKey
            (SequencialMap.push_back
                (SequencialMap.empty : SequencialMap Nat Nat) 2 6).1 2 =
          (SequencialMap.push_back
              (SequencialMap.empty : SequencialMap Nat Nat) 2 6).1) ∧
      (SequencialMap.Inv
          (SequencialMap.push_back
              (SequencialMap.empty : SequencialMap Nat Nat) 2 6).1 →
        SequencialMap.contains
            (SequencialMap.push_back
                (SequencialMap.empty : SequencialMap Nat Nat) 2 6).1 2 = true →
        SequencialMap.Inv
            (SequencialMap.eraseKey
                (SequencialMap.push_back
                    (SequencialMap.empty : SequencialMap Nat Nat) 2 6).1 2) ∧
        (∃ l₁ l₂,
          (SequencialMap.push_back
              (SequencialMap.empty : SequencialMap Nat Nat) 2 6).1.v =
            l₁ ++ 2 :: l₂ ∧
          (SequencialMap.eraseKey
              (SequencialMap.push_back
                  (SequencialMap.empty : SequencialMap Nat Nat) 2 6).1 2).v =
            l₁ ++ l₂) ∧
        mapLookup 2
            (SequencialMap.eraseKey
                (SequencialMap.push_back
                    (SequencialMap.empty : SequencialMap Nat Nat) 2 6).1 2).m =
          none ∧
        SequencialMap.size
              (SequencialMap.eraseKey
                  (SequencialMap.push_back
                      (SequencialMap.empty : SequencialMap Nat Nat) 2 6).1 2) +
            1 =
          SequencialMap.size
            (SequencialMap.push_back
                (SequencialMap.empty : SequencialMap Nat Nat) 2 6).1) :=
  claim9_erase_absent_noop 2

/-- Claim C10: the const `operator[](k)` overload is modelled as a function
that returns only a value, so it cannot modify the container (no insertion on
a miss, unlike the non-const overload); it returns a copy of the stored value
when `k` is present and a default-constructed `T()` when `k` is absent. -/
theorem claim10_const_bracket_pure [Inhabited β] {s : SequencialMap α β}
    (hi : SequencialMap.Inv s) (k : α) :
    (SequencialMap.contains s k = true →
        mapLookup k s.m = some (SequencialMap.bracketConst s k)) ∧
      (SequencialMap.contains s k = false →
        SequencialMap.bracketConst s k = default) := by
  constructor
  · intro hc
    have hkv : k ∈ s.v := (contains_iff_mem s k).mp hc
    obtain ⟨i, hfp⟩ := Option.isSome_iff_exists.mp
      ((findPos_isSome_iff k s.v).mpr hkv)
    obtain ⟨w, hw⟩ := inv_lookup_some hi hkv
    unfold SequencialMap.bracketConst
    rw [hfp, hw]
    rfl
  · intro hc
    have hkv : k ∉ s.v := by
      intro hmem
      rw [(contains_iff_mem s k).mpr hmem] at hc
      exact Bool.noConfusion hc
    unfold SequencialMap.bracketConst
    rw [(findPos_eq_none_iff k s.v).mpr hkv]

/-- Witness for C10: the const accessor evaluated at a concrete container. -/
theorem claim10_witness :
    (SequencialMap.contains
          (SequencialMap.push_back
              (SequencialMap.empty : SequencialMap Nat Nat) 3 8).1 3 = true →
        mapLookup 3
            (SequencialMap.push_back
                (SequencialMap.empty : SequencialMap Nat Nat) 3 8).1.m =
          some (SequencialMap.bracketConst
              (SequencialMap.push_back
                  (SequencialMap.empty : SequencialMap Nat Nat) 3 8).1 3)) ∧
      (SequencialMap.contains
            (SequencialMap.push_back
                (SequencialMap.empty : SequencialMap Nat Nat) 3 8).1 3 = false →
        SequencialMap.bracketConst
            (SequencialMap.push_back
                (SequencialMap.empty : SequencialMap Nat Nat) 3 8).1 3 =
          default) :=
  claim10_const_bracket_pure (by decide) 3

/-- Claim C5 (code bug): the source's `operator!=` body is
`return *this != other;`, a call to itself on the same arguments, so `!=`
never delegates to the key index and never returns: the fuel-indexed model of
the recursion yields no answer at any call-frame budget, for any two
containers.  (The claim — and the function's own documentation — say `!=`
terminates with the negation of `==`.) -/
theorem claim5_neq_infinite_recursion (s t : SequencialMap α β)
    (fuel : Nat) : SequencialMap.neqFuel s t fuel = none := by
  induction fuel with
  | zero => rfl
  | succ n ih => exact ih

theorem foldPushPairs_cons (s : SequencialMap α β) (p : α × β)
    (rest : List (α × β)) :
    SequencialMap.foldPushPairs s (p :: rest) =
      SequencialMap.foldPushPairs (SequencialMap.push_back s p.1 p.2).1 rest :=
  rfl

theorem foldPushPairs_v (l : List (α × β)) (s : SequencialMap α β) :
    (SequencialMap.foldPushPairs s l).v =
      s.v ++ (firstOccsFrom s.v l).map Prod.fst := by
  induction l generalizing s with
  | nil => simp [SequencialMap.foldPushPairs, firstOccsFrom]
  | cons p rest ih =>
    rw [foldPushPairs_cons]
    by_cases hmem : p.1 ∈ s.v
    · obtain ⟨i, hfp⟩ := Option.isSome_iff_exists.mp
        ((findPos_isSome_iff p.1 s.v).mpr hmem)
      have hstate : (SequencialMap.push_back s p.1 p.2).1 = s := by
        unfold SequencialMap.push_back
        rw [hfp]
      rw [hstate, ih s]
      simp [firstOccsFrom, hmem]
    · have hfp := (findPos_eq_none_iff p.1 s.v).mpr hmem
      have hstate : (SequencialMap.push_back s p.1 p.2).1 =
          ⟨s.v ++ [p.1], (mapInsert p.1 p.2 s.m).1⟩ := by
        unfold SequencialMap.push_back
        rw [hfp]
      rw [hstate, ih]
      simp [firstOccsFrom, hmem]

theorem foldPushPairs_values [Inhabited β] (l : List (α × β))
    (s : SequencialMap α β) (hi : SequencialMap.Inv s) :
    SequencialMap.values (SequencialMap.foldPushPairs s l) =
      SequencialMap.values s ++ (firstOccsFrom s.v l).map Prod.snd := by
  induction l generalizing s with
  | nil => simp [SequencialMap.foldPushPairs, firstOccsFrom]
  | cons p rest ih =>
    rw [foldPushPairs_cons]
    by_cases hmem : p.1 ∈ s.v
    · obtain ⟨i, hfp⟩ := Option.isSome_iff_exists.mp
        ((findPos_isSome_iff p.1 s.v).mpr hmem)
      have hstate : (SequencialMap.push_back s p.1 p.2).1 = s := by
        unfold SequencialMap.push_back
        rw [hfp]
      rw [hstate, ih s hi]
      simp [firstOccsFrom, hmem]
    · have hfp := (findPos_eq_none_iff p.1 s.v).mpr hmem
      have hnone := inv_lookup_none hi hmem
      have hstate : (SequencialMap.push_back s p.1 p.2).1 =
          ⟨s.v ++ [p.1], (mapInsert p.1 p.2 s.m).1⟩ := by
        unfold SequencialMap.push_back
        rw [hfp]
      have hinv' : SequencialMap.Inv
          (⟨s.v ++ [p.1], (mapInsert p.1 p.2 s.m).1⟩ : SequencialMap α β) :=
        inv_append_insert p.1 p.2 hi hmem
      have hvals : SequencialMap.values
          (⟨s.v ++ [p.1], (mapInsert p.1 p.2 s.m).1⟩ : SequencialMap α β) =
          SequencialMap.values s ++ [p.2] := by
        unfold SequencialMap.values
        rw [List.map_append]
        congr 1
        · apply List.map_congr_left
          intro a ha
          have hne : a ≠ p.1 := fun hh => hmem (hh ▸ ha)
          rw [mapLookup_mapInsert_ne a p.1 p.2 s.m hne]
        · simp [mapLookup_mapInsert_self p.1 p.2 s.m hi.2.2.2, hnone]
      rw [hstate, ih _ hinv', hvals]
      simp [firstOccsFrom, hmem]

/-- Claim C7: after any sequence of append-only operations, iteration order
equals first-seen insertion order: for any pair list, building the container
through repeated `push_back` (the range and initializer-list constructors)
yields `keys()` and `values()` listing the entries in the order their keys
first appeared, later duplicates skipped; `emplace_back` (insertion at
position `size()`) coincides with `push_back`; in particular building from
(c,1),(a,2),(b,3) gives size 3, keys [c,a,b] and values [1,2,3]. -/
theorem claim7_append_only_insertion_order :
    (∀ (γ δ : Type), ∀ [LinearOrder γ] [Inhabited δ],
      ∀ (l : List (γ × δ)),
        SequencialMap.keys (SequencialMap.ofList l) =
            (firstOccs l).map Prod.fst ∧
          SequencialMap.values (SequencialMap.ofList l) =
            (firstOccs l).map Prod.snd) ∧
      (∀ (γ δ : Type), ∀ [LinearOrder γ],
        ∀ (s : SequencialMap γ δ) (k : γ) (val : δ),
          (SequencialMap.insertAt s s.v.length k val).1 =
            (SequencialMap.push_back s k val).1) ∧
      SequencialMap.size
          (SequencialMap.ofList [('c', 1), ('a', 2), ('b', 3)] :
            SequencialMap Char Nat) = 3 ∧
      SequencialMap.keys
          (SequencialMap.ofList [('c', 1), ('a', 2), ('b', 3)] :
            SequencialMap Char Nat) = ['c', 'a', 'b'] ∧
      SequencialMap.values
          (SequencialMap.ofList [('c', 1), ('a', 2), ('b', 3)] :
            SequencialMap Char Nat) = [1, 2, 3] := by
  refine ⟨?_, ?_, by decide, by decide, by decide⟩
  · intro γ δ _ _ l
    constructor
    · unfold SequencialMap.ofList SequencialMap.keys firstOccs
      rw [foldPushPairs_v]
      simp [SequencialMap.empty]
    · unfold SequencialMap.ofList firstOccs
      rw [foldPushPairs_values _ _ inv_empty]
      simp [SequencialMap.values, SequencialMap.empty]
  · intro γ δ _ s k val
    unfold SequencialMap.insertAt SequencialMap.push_back
    cases hfp : findPos k s.v
    · simp [List.insertIdx_length_self]
    · rfl

theorem insortPair_perm (p : α × β) (l : List (α × β)) :
    List.Perm (insortPair p l) (p :: l) := by
  induction l with
  | nil => exact List.Perm.refl _
  | cons q rest ih =>
    by_cases h : p.1 < q.1
    · simp [insortPair, h]
    · simp only [insortPair, h, if_false]
      exact (ih.cons q).trans (List.Perm.swap p q rest)

theorem sortByKey_perm (l : List (α × β)) : List.Perm (sortByKey l) l := by
  induction l with
  | nil => exact List.Perm.refl _
  | cons p rest ih =>
    have hr : sortByKey (p :: rest) = insortPair p (sortByKey rest) := rfl
    rw [hr]
    exact (insortPair_perm p (sortByKey rest)).trans (ih.cons p)

theorem sorted_insortPair (p : α × β) {l : List (α × β)} (hs : SortedKeys l)
    (hne : ∀ q ∈ l, p.1 ≠ q.1) : SortedKeys (insortPair p l) := by
  induction l with
  | nil =>
    unfold SortedKeys insortPair
    simp
  | cons q rest ih =>
    obtain ⟨hhead, htail⟩ := List.pairwise_cons.mp hs
    by_cases h : p.1 < q.1
    · simp only [insortPair, if_pos h]
      refine List.pairwise_cons.mpr ⟨?_, hs⟩
      intro x hx
      rcases List.mem_cons.mp hx with hx | hx
      · exact hx ▸ h
      · exact lt_trans h (hhead x hx)
    · simp only [insortPair, h, if_false]
      have hq : q.1 < p.1 := by
        rcases lt_trichotomy p.1 q.1 with h' | h' | h'
        · exact absurd h' h
        · exact absurd h' (hne q (List.mem_cons_self q rest))
        · exact h'
      refine List.pairwise_cons.mpr
        ⟨?_, ih htail (fun x hx => hne x (List.mem_cons_of_mem q hx))⟩
      intro x hx
      rcases List.mem_cons.mp ((insortPair_perm p rest).mem_iff.mp hx) with
        hx | hx
      · exact hx ▸ hq
      · exact hhead x hx

theorem sortByKey_sorted {l : List (α × β)}
    (hnd : (l.map Prod.fst).Nodup) : SortedKeys (sortByKey l) := by
  induction l with
  | nil =>
    unfold SortedKeys sortByKey
    simp
  | cons p rest ih =>
    simp only [List.map_cons, List.nodup_cons] at hnd
    have hr : sortByKey (p :: rest) = insortPair p (sortByKey rest) := rfl
    rw [hr]
    refine sorted_insortPair p (ih hnd.2) ?_
    intro q hq hh
    have hmem : q ∈ rest := (sortByKey_perm rest).mem_iff.mp hq
    exact hnd.1 (hh ▸ List.mem_map_of_mem Prod.fst hmem)

theorem map_fst_pairing (f : α → β) (l : List α) :
    (l.map (fun k => (k, f k))).map Prod.fst = l := by
  induction l with
  | nil => rfl
  | cons a rest ih => simp [ih]

theorem entries_map_fst [Inhabited β] (s : SequencialMap α β) :
    (SequencialMap.entries s).map Prod.fst = s.v := by
  unfold SequencialMap.entries
  exact map_fst_pairing _ s.v

theorem mapLookup_of_mem_nodup {q : α × β} {l : List (α × β)}
    (hnd : (l.map Prod.fst).Nodup) (hq : q ∈ l) :
    mapLookup q.1 l = some q.2 := by
  induction l with
  | nil => simp at hq
  | cons p rest ih =>
    simp only [List.map_cons, List.nodup_cons] at hnd
    rcases List.mem_cons.mp hq with h | h
    · subst h
      simp [mapLookup]
    · have hne : ¬ (p.1 = q.1) := by
        intro hh
        exact hnd.1 (hh ▸ List.mem_map_of_mem Prod.fst h)
      simp [mapLookup, hne, ih hnd.2 h]

theorem mem_entries_iff [Inhabited β] {s : SequencialMap α β}
    (hi : SequencialMap.Inv s) (q : α × β) :
    q ∈ SequencialMap.entries s ↔ q ∈ s.m := by
  unfold SequencialMap.entries
  constructor
  · intro hq
    obtain ⟨k, hk, hkq⟩ := List.mem_map.mp hq
    obtain ⟨val, hval⟩ := inv_lookup_some hi hk
    rw [← hkq, hval]
    simpa using mapLookup_mem hval
  · intro hq
    have hkv : q.1 ∈ s.v := hi.2.2.1 q hq
    have hlook : mapLookup q.1 s.m = some q.2 :=
      mapLookup_of_mem_nodup (sortedKeys_keysNodup hi.2.2.2) hq
    refine List.mem_map.mpr ⟨q.1, hkv, ?_⟩
    rw [hlook]
    rfl

theorem entries_nodup [Inhabited β] {s : SequencialMap α β}
    (hi : SequencialMap.Inv s) : (SequencialMap.entries s).Nodup := by
  unfold SequencialMap.entries
  refine List.Nodup.map ?_ hi.1
  intro a b hab
  exact congrArg Prod.fst hab

theorem sortEntries_eq [Inhabited β] {s : SequencialMap α β}
    (hi : SequencialMap.Inv s) : keySortedEntries s = s.m := by
  have hperm₁ : List.Perm (keySortedEntries s) (SequencialMap.entries s) :=
    sortByKey_perm _
  have hperm₂ : List.Perm (SequencialMap.entries s) s.m := by
    rw [List.perm_ext_iff_of_nodup (entries_nodup hi)
      (List.Nodup.of_map Prod.fst (sortedKeys_keysNodup hi.2.2.2))]
    exact fun q => mem_entries_iff hi q
  have hsorted₁ : SortedKeys (keySortedEntries s) := by
    apply sortByKey_sorted
    rw [entries_map_fst]
    exact hi.1
  exact List.eq_of_perm_of_sorted (hperm₁.trans hperm₂) hsorted₁ hi.2.2.2

/-- Claim C4: `m1 == m2` holds iff the key-sorted contents of the two
containers are equal; in particular containers holding the same entries
inserted in different orders compare equal, e.g.
(a,1),(b,2) versus (b,2),(a,1). -/
theorem claim4_eq_iff_key_sorted_contents :
    (∀ (γ δ : Type),
      ∀ [LinearOrder γ] [DecidableEq γ] [DecidableEq δ] [Inhabited δ],
      ∀ (s t : SequencialMap γ δ),
        SequencialMap.Inv s → SequencialMap.Inv t →
        (SequencialMap.eqOp s t = true ↔
          keySortedEntries s = keySortedEntries t)) ∧
      SequencialMap.eqOp (SequencialMap.ofList [('a', 1), ('b', 2)])
        (SequencialMap.ofList [('b', 2), ('a', 1)] :
          SequencialMap Char Nat) = true := by
  constructor
  · intro γ δ _ _ _ _ s t hs ht
    unfold SequencialMap.eqOp
    rw [sortEntries_eq hs, sortEntries_eq ht]
    simp
  · decide

/-- Witness for C4: the equality criterion applied to two concrete
containers built from the same entries in different orders. -/
theorem claim4_witness :
    SequencialMap.eqOp
          (SequencialMap.ofList [('a', 1), ('b', 2)] : SequencialMap Char Nat)
          (SequencialMap.ofList [('b', 2), ('a', 1)]) = true ↔
      keySortedEntries
          (SequencialMap.ofList [('a', 1), ('b', 2)] :
            SequencialMap Char Nat) =
        keySortedEntries
          (SequencialMap.ofList [('b', 2), ('a', 1)] :
            SequencialMap Char Nat) :=
  claim4_eq_iff_key_sorted_contents.1 Char Nat
    (SequencialMap.ofList [('a', 1), ('b', 2)])
    (SequencialMap.ofList [('b', 2), ('a', 1)])
    (by decide) (by decide)

theorem foldPushPairs_mem (l : List (α × β)) (t : SequencialMap α β)
    (hi : SequencialMap.Inv t) (hnd : (l.map Prod.fst).Nodup)
    (hdisj : ∀ p ∈ l, p.1 ∉ t.v) (q : α × β) :
    q ∈ (SequencialMap.foldPushPairs t l).m ↔ q ∈ t.m ∨ q ∈ l := by
  induction l generalizing t with
  | nil => simp [SequencialMap.foldPushPairs]
  | cons p rest ih =>
    rw [foldPushPairs_cons]
    simp only [List.map_cons, List.nodup_cons] at hnd
    have hpv : p.1 ∉ t.v := hdisj p (List.mem_cons_self p rest)
    have hfp := (findPos_eq_none_iff p.1 t.v).mpr hpv
    have hnone := inv_lookup_none hi hpv
    have hstate : (SequencialMap.push_back t p.1 p.2).1 =
        ⟨t.v ++ [p.1], (mapInsert p.1 p.2 t.m).1⟩ := by
      unfold SequencialMap.push_back
      rw [hfp]
    have hinv' := inv_append_insert p.1 p.2 hi hpv
    have hdisj' : ∀ x ∈ rest, x.1 ∉
        (⟨t.v ++ [p.1], (mapInsert p.1 p.2 t.m).1⟩ : SequencialMap α β).v := by
      intro x hx hmem
      rcases List.mem_append.mp hmem with h | h
      · exact hdisj x (List.mem_cons_of_mem p hx) h
      · simp only [List.mem_singleton] at h
        exact hnd.1 (h ▸ List.mem_map_of_mem Prod.fst hx)
    rw [hstate, ih _ hinv' hnd.2 hdisj']
    constructor
    · rintro (hq | hq)
      · rcases mem_mapInsert_sub hq with h | h
        · exact Or.inl h
        · exact Or.inr (List.mem_cons.mpr (Or.inl (by simp [h])))
      · exact Or.inr (List.mem_cons_of_mem p hq)
    · rintro (hq | hq)
      · exact Or.inl (mem_mapInsert_super p.1 p.2 hq)
      · rcases List.mem_cons.mp hq with h | h
        · refine Or.inl ?_
          rw [h]
          exact self_mem_mapInsert p.1 p.2 hnone
        · exact Or.inr h

/-- Claim C3: serializing (writing `size()` then each (key, value) pair in
sequence order) and deserializing into a fresh container (clear, read the
count, then `push_back` that many decoded pairs in order) yields a container
that compares equal to the original under `operator==` (key-sorted content
equality). -/
theorem claim3_serialize_round_trip [Inhabited β] [DecidableEq α]
    [DecidableEq β] {s : SequencialMap α β} (hi : SequencialMap.Inv s) :
    SequencialMap.eqOp (SequencialMap.decode (SequencialMap.encode s)) s =
      true := by
  have hlen : (SequencialMap.entries s).length = SequencialMap.size s := by
    unfold SequencialMap.entries
    rw [List.length_map]
    exact inv_size hi
  have htake : (SequencialMap.entries s).take (SequencialMap.size s) =
      SequencialMap.entries s := by
    rw [← hlen]
    exact List.take_length _
  show SequencialMap.eqOp
      (SequencialMap.foldPushPairs SequencialMap.empty
        ((SequencialMap.entries s).take (SequencialMap.size s))) s = true
  rw [htake]
  have hd := inv_foldPushPairs (SequencialMap.entries s)
    SequencialMap.empty inv_empty
  have hknd : ((SequencialMap.entries s).map Prod.fst).Nodup := by
    rw [entries_map_fst]
    exact hi.1
  have hmemiff : ∀ q, q ∈ (SequencialMap.foldPushPairs SequencialMap.empty
      (SequencialMap.entries s)).m ↔ q ∈ s.m := by
    intro q
    rw [foldPushPairs_mem _ _ inv_empty hknd
      (fun p _ hmem => by simp [SequencialMap.empty] at hmem) q]
    have hempty : q ∈ (SequencialMap.empty : SequencialMap α β).m ↔ False := by
      simp [SequencialMap.empty]
    rw [hempty, false_or]
    exact mem_entries_iff hi q
  have heq : (SequencialMap.foldPushPairs SequencialMap.empty
      (SequencialMap.entries s)).m = s.m := by
    refine List.eq_of_perm_of_sorted ?_ hd.2.2.2 hi.2.2.2
    rw [List.perm_ext_iff_of_nodup
      (List.Nodup.of_map Prod.fst (sortedKeys_keysNodup hd.2.2.2))
      (List.Nodup.of_map Prod.fst (sortedKeys_keysNodup hi.2.2.2))]
    exact hmemiff
  unfold SequencialMap.eqOp
  rw [heq]
  simp

/-- Witness for C3: the round trip evaluated on a concrete container. -/
theorem claim3_witness :
    SequencialMap.eqOp
        (SequencialMap.decode
          (SequencialMap.encode
            (SequencialMap.ofList [('c', 1), ('a', 2)] :
              SequencialMap Char Nat)))
        (SequencialMap.ofList [('c', 1), ('a', 2)]) = true :=
  claim3_serialize_round_trip (by decide)

end Container
